import Mathlib

set_option maxHeartbeats 1600000

/-
Shallow embedding of `src/sieve.rs` (the `slow_primes` crate): the bit-packed
odd-only sieve `Primes`, its primality query, the bidirectional prime iterator
and the trial-division factorizer, together with proofs about them.

The Rust `BitVec` is modelled as a `List Bool`; every `BitVec` read and write
performed by the code is in bounds, where `List.getD _ _ false` and `List.set`
agree with `BitVec` indexing.  The `while` loops are written with an explicit
iteration budget (`fuel`) so that they stay structurally recursive and concrete
runs reduce inside the kernel; each call site supplies a budget that provably
covers the full run of the loop.
-/

namespace SlowPrimes

/-- Sieve store (Rust struct `Primes`): one flag per odd number, the flag at
index `i` standing for the number `2*i+1`. -/
structure Primes where
  v : List Bool

/-- Iterator over the stored primes (Rust struct `PrimeIterator`): the `two`
flag and the remaining slice of the enumerated bit vector (Rust
`iter::Enumerate<bit_vec::Iter>`), which yields `(index, flag)` pairs and can be
consumed from either end. -/
structure PrimeIterator where
  two : Bool
  items : List (Nat × Bool)

/-- Largest `k ≤ m` with `k*k ≤ n` (and `0` if there is none): downward scan
used to define the floor square root. -/
def floorSqrtAux : Nat → Nat → Nat
  | 0, _ => 0
  | k+1, n => if (k + 1) * (k + 1) ≤ n then k + 1 else floorSqrtAux k n

/-- Floor of the square root: the value Rust computes with
`(limit as f64).sqrt() as usize` (for the integers in play the `f64` square
root truncates to exactly this floor). -/
def floorSqrt (n : Nat) : Nat := floorSqrtAux n n

/-- Body of the nested Rust function `filter`:
`while zero < limit / 2 { is_prime.set(zero, false); zero += p }`.
The first argument is the iteration budget; every call supplies `limit / 2`,
which for `p ≥ 1` covers the whole run of the loop. -/
def filterGo : Nat → List Bool → Nat → Nat → Nat → List Bool
  | 0, v, _, _, _ => v
  | fuel+1, v, half, z, p =>
    if z < half then filterGo fuel (v.set z false) half (z + p) p else v

/-- Rust `filter(is_prime, limit, check, p)`: starting from
`zero = 2*check*(check+1)`, clear every `p`-th flag below `limit / 2`. -/
def sieveFilter (v : List Bool) (limit check p : Nat) : List Bool :=
  filterGo (limit / 2) v (limit / 2) (2 * check * (check + 1)) p

/-- Main scanning loop of `Primes::sieve`:
`while check <= bound { if is_prime[check] { filter(..., check, 2*check+1) } check += tick; tick = 3 - tick; }`.
The first argument is the iteration budget; `bound + 1` covers the whole run
because `tick ≥ 1` throughout. -/
def sieveLoop : Nat → List Bool → Nat → Nat → Nat → Nat → List Bool
  | 0, v, _, _, _, _ => v
  | fuel+1, v, limit, bound, check, tick =>
    if check ≤ bound then
      sieveLoop fuel
        (if v.getD check false then sieveFilter v limit check (2 * check + 1) else v)
        limit bound (check + tick) (3 - tick)
    else v

/-- Rust `Primes::sieve(limit)`. -/
def Primes.sieve (limit : Nat) : Primes :=
  let limit := max 10 limit
  let v := List.replicate ((limit + 1) / 2) true
  let v := v.set 0 false
  let v := sieveFilter v limit 1 3
  let bound := floorSqrt limit + 1
  let check := 2
  let tick := if check % 3 == 1 then 2 else 1
  Primes.mk (sieveLoop (bound + 1) v limit bound check tick)

/-- Rust `Primes::upper_bound`. -/
def Primes.upper_bound (P : Primes) : Nat := (P.v.length - 1) * 2 + 1

/-- Rust `Primes::is_prime`; `none` models the `assert!(n <= self.upper_bound())`
panic on an odd `n` out of range (the flag access itself is then in bounds). -/
def Primes.is_prime (P : Primes) (n : Nat) : Option Bool :=
  if n % 2 = 0 then some (decide (n = 2))
  else if n ≤ P.upper_bound then some (P.v.getD (n / 2) false)
  else none

/-- Rust `Primes::primes`: a fresh iterator with `two` pending and the whole
enumerated bit vector remaining. -/
def Primes.primes (P : Primes) : PrimeIterator :=
  PrimeIterator.mk true P.v.enum

/-- Scanning step inside `PrimeIterator::next`: the
`for (i, is_prime) in &mut self.iter` loop, consuming entries from the front
until a set flag is found. -/
def nextOdd : List (Nat × Bool) → Option Nat × List (Nat × Bool)
  | [] => (none, [])
  | (i, b) :: rest => if b then (some (2 * i + 1), rest) else nextOdd rest

/-- Rust `PrimeIterator::next`. -/
def PrimeIterator.next (s : PrimeIterator) : Option Nat × PrimeIterator :=
  if s.two then (some 2, PrimeIterator.mk false s.items)
  else
    match nextOdd s.items with
    | (some x, rest) => (some x, PrimeIterator.mk false rest)
    | (none, rest) => (none, PrimeIterator.mk false rest)

/-- Backward scan of `PrimeIterator::next_back` over the remaining slice: pop
entries from the back until a set flag is found, consuming everything scanned. -/
def popBack : List (Nat × Bool) → Option Nat × List (Nat × Bool)
  | [] => (none, [])
  | x :: rest =>
    match popBack rest with
    | (some y, rest') => (some y, x :: rest')
    | (none, _) => if x.2 then (some (2 * x.1 + 1), []) else (none, [])

/-- Rust `PrimeIterator::next_back`: backward loop over the slice, yielding the
synthesized 2 once the inner iterator is exhausted. -/
def PrimeIterator.next_back (s : PrimeIterator) : Option Nat × PrimeIterator :=
  match popBack s.items with
  | (some y, rest) => (some y, PrimeIterator.mk s.two rest)
  | (none, _) =>
    if s.two then (some 2, PrimeIterator.mk false [])
    else (none, PrimeIterator.mk false [])

/-- Rust `PrimeIterator::size_hint`, parameterized by the external collaborator
`estimate_prime_pi` (spec section 6): clone the iterator, peek `next` and
`next_back` on the clone, and combine the two π-estimates. -/
def PrimeIterator.size_hint (est : Nat → Nat × Nat) (s : PrimeIterator) : Nat × Option Nat :=
  let r1 := s.next
  let r2 := r1.2.next_back
  match r1.1, r2.1 with
  | some lo, some hi =>
    ((est hi).1 - min (est lo).2 (est hi).1, some ((est hi).2 - (est lo).1 + 1))
  | some _, none => (1, some 1)
  | none, _ => (0, some 0)

/-- Values of the set flags of a slice, front to back (what repeated `nextOdd`
yields); structural so that concrete sieves evaluate inside the kernel. -/
def collectOddF : List (Nat × Bool) → List Nat
  | [] => []
  | (i, b) :: rest => if b then (2 * i + 1) :: collectOddF rest else collectOddF rest

/-- Values of the set flags of a slice, back to front. -/
def collectOddB : List (Nat × Bool) → List Nat
  | [] => []
  | x :: rest => collectOddB rest ++ (if x.2 then [2 * x.1 + 1] else [])

/-- Fuelled forward collection: repeatedly call `PrimeIterator.next`, as Rust's
`collect::<Vec<usize>>()` does. -/
def collectFF : Nat → PrimeIterator → List Nat
  | 0, _ => []
  | fuel+1, s =>
    match s.next with
    | (some x, s') => x :: collectFF fuel s'
    | (none, _) => []

/-- Forward collection of the iterator; the budget `items.length + 1` always
covers the full run. -/
def collectForward (s : PrimeIterator) : List Nat := collectFF (s.items.length + 1) s

/-- Fuelled backward collection: repeatedly call `PrimeIterator.next_back`, as
`iterator.rev().collect()` does. -/
def collectBF : Nat → PrimeIterator → List Nat
  | 0, _ => []
  | fuel+1, s =>
    match s.next_back with
    | (some x, s') => x :: collectBF fuel s'
    | (none, _) => []

/-- Backward collection of the iterator; the budget always covers the full run. -/
def collectBackward (s : PrimeIterator) : List Nat := collectBF (s.items.length + 1) s

/-- The full prime sequence of a store in increasing order, exactly as the
`for p in self.primes()` loop of `Primes::factor` consumes it. -/
def primesList (P : Primes) : List Nat := collectForward P.primes

/-- Inner division loop of `Primes::factor`:
`while n % p == 0 { n /= p; count += 1 }`, returning the final `(n, count)`.
The budget `n` always suffices for the divisors `p ≥ 2` the loop meets. -/
def divLoopGo : Nat → Nat → Nat → Nat → Nat × Nat
  | 0, _, n, count => (n, count)
  | fuel+1, p, n, count =>
    if n % p = 0 then divLoopGo fuel p (n / p) (count + 1) else (n, count)

/-- The division loop started on `n` with divisor `p` and `count = 0`. -/
def divOut (p n : Nat) : Nat × Nat := divLoopGo n p n 0

/-- The `for p in self.primes()` loop of `Primes::factor`: divide out each
listed value in turn, recording `(p, count)` whenever `count > 0`, stopping
early when the running quotient reaches 1. -/
def factorLoop : List Nat → Nat → List (Nat × Nat) → Nat × List (Nat × Nat)
  | [], n, ret => (n, ret)
  | p :: ps, n, ret =>
    if n = 1 then (n, ret)
    else
      factorLoop ps (divOut p n).1
        (if 0 < (divOut p n).2 then ret ++ [(p, (divOut p n).2)] else ret)

/-- Rust `Primes::factor`; `Except.error` is the
`Err((leftover, partial factorisation))` outcome. -/
def Primes.factor (P : Primes) (n : Nat) :
    Except (Nat × List (Nat × Nat)) (List (Nat × Nat)) :=
  if n = 0 then Except.error (0, [])
  else
    let r := factorLoop (primesList P) n []
    if r.1 ≠ 1 then
      if P.upper_bound * P.upper_bound ≥ r.1 then Except.ok (r.2 ++ [(r.1, 1)])
      else Except.error (r.1, r.2)
    else Except.ok r.2

/-- Executable trial-division primality test, the ground truth used for prime
counting. -/
def isPrimeTD (n : Nat) : Bool :=
  decide (2 ≤ n) && (List.range n).all (fun d => decide (d < 2) || decide (n % d ≠ 0))

/-- Count of the primes `≤ n` — the true `π(n)` — computed by trial division. -/
def primeCount (n : Nat) : Nat :=
  ((List.range (n + 1)).filter (fun m => isPrimeTD m)).length

/-- The exact prime-counting function packaged as an `estimate_prime_pi`
collaborator: both bounds are the true `π`, so it satisfies the soundness
contract `lower ≤ π(n) ≤ upper` of spec section 6. -/
def piExact (n : Nat) : Nat × Nat := (primeCount n, primeCount n)

/-! ### List access helpers -/

theorem getD_set_false (v : List Bool) (i : Nat) : (v.set i false).getD i false = false := by
  rw [List.getD_eq_getElem?_getD, List.getElem?_set, if_pos rfl]
  split <;> rfl

theorem getD_set_ne (v : List Bool) (i j : Nat) (b : Bool) (h : i ≠ j) :
    (v.set i b).getD j false = v.getD j false := by
  rw [List.getD_eq_getElem?_getD, List.getElem?_set_ne h, ← List.getD_eq_getElem?_getD]

theorem getD_replicate_set (n j : Nat) (hj : j < n) :
    ((List.replicate n true).set 0 false).getD j false = decide (j ≠ 0) := by
  by_cases h0 : j = 0
  · subst h0
    rw [getD_set_false]
    rfl
  · rw [getD_set_ne _ _ _ _ (fun h => h0 h.symm)]
    rw [List.getD_eq_getElem?_getD, List.getElem?_replicate, if_pos hj]
    simp [h0]

theorem getD_oob (v : List Bool) (j : Nat) (h : v.length ≤ j) : v.getD j false = false := by
  rw [List.getD_eq_getElem?_getD, List.getElem?_eq_none (by omega)]
  rfl

/-! ### Floor square root -/

theorem floorSqrtAux_sq_le (m n : Nat) : floorSqrtAux m n * floorSqrtAux m n ≤ n := by
  induction m with
  | zero => simp [floorSqrtAux]
  | succ m ih =>
    simp only [floorSqrtAux]
    split
    · assumption
    · exact ih

theorem le_floorSqrtAux (n k : Nat) : ∀ m, k ≤ m → k * k ≤ n → k ≤ floorSqrtAux m n := by
  intro m
  induction m with
  | zero => intro hk _; simpa [floorSqrtAux] using hk
  | succ m ih =>
    intro hk hsq
    simp only [floorSqrtAux]
    split
    · omega
    · rename_i hgt
      have hne : k ≠ m + 1 := by
        intro h
        rw [h] at hsq
        exact hgt hsq
      exact ih (by omega) hsq

theorem floorSqrt_sq_le (n : Nat) : floorSqrt n * floorSqrt n ≤ n := floorSqrtAux_sq_le n n

theorem le_floorSqrt (n k : Nat) (hk : k ≤ n) (hsq : k * k ≤ n) : k ≤ floorSqrt n :=
  le_floorSqrtAux n k n hk hsq

/-- The scanning bound of the sieve stays strictly inside the flag array. -/
theorem bound_lt_len (M : Nat) (h10 : 10 ≤ M) : floorSqrt M + 1 < (M + 1) / 2 := by
  have h3 : 3 ≤ floorSqrt M := le_floorSqrt M 3 (by omega) (by omega)
  have hsq : floorSqrt M * floorSqrt M ≤ M := floorSqrt_sq_le M
  have h3s : 3 * floorSqrt M ≤ floorSqrt M * floorSqrt M :=
    Nat.mul_le_mul_right _ h3
  omega

/-- A product of two factors that are both at least 2 is composite. -/
theorem notPrime_mul {a b : Nat} (ha : 2 ≤ a) (hb : 2 ≤ b) : ¬ Nat.Prime (a * b) := by
  intro hp
  rcases Nat.Prime.eq_one_or_self_of_dvd hp a ⟨b, rfl⟩ with h | h
  · omega
  · nlinarith

/-! ### The inner clearing loop -/

theorem filterGo_length (half p : Nat) :
    ∀ (fuel z : Nat) (v : List Bool), (filterGo fuel v half z p).length = v.length := by
  intro fuel
  induction fuel with
  | zero => intro z v; rfl
  | succ fuel ih =>
    intro z v
    simp only [filterGo]
    split
    · rw [ih, List.length_set]
    · rfl

theorem filterGo_mono (half p j : Nat) :
    ∀ (fuel z : Nat) (v : List Bool), v.getD j false = false →
      (filterGo fuel v half z p).getD j false = false := by
  intro fuel
  induction fuel with
  | zero => intro z v h; exact h
  | succ fuel ih =>
    intro z v h
    simp only [filterGo]
    split
    · apply ih
      by_cases hz : z = j
      · subst hz
        exact getD_set_false v z
      · rw [getD_set_ne _ _ _ _ hz]
        exact h
    · exact h

theorem filterGo_cleared (half p : Nat) :
    ∀ (fuel z k j : Nat) (v : List Bool), half ≤ z + fuel → j = z + k * p → j < half →
      (filterGo fuel v half z p).getD j false = false := by
  intro fuel
  induction fuel with
  | zero =>
    intro z k j v hfuel hj hjh
    have : z ≤ j := by omega
    omega
  | succ fuel ih =>
    intro z k j v hfuel hj hjh
    have hz : z < half := by
      have : z ≤ j := by omega
      omega
    simp only [filterGo, if_pos hz]
    by_cases hjz : j = z
    · subst hjz
      exact filterGo_mono half p j fuel (j + p) _ (getD_set_false v j)
    · have hk1 : 1 ≤ k := by
        rcases Nat.eq_zero_or_pos k with rfl | h
        · omega
        · exact h
      have hp1 : 1 ≤ p := by
        rcases Nat.eq_zero_or_pos p with rfl | h
        · omega
        · exact h
      apply ih (z + p) (k - 1) j
      · omega
      · have hkk : k = (k - 1) + 1 := by omega
        have h1 : k * p = (k - 1) * p + p := by
          conv_lhs => rw [hkk]
          rw [Nat.succ_mul]
        omega
      · exact hjh

theorem filterGo_false_of (half p : Nat) :
    ∀ (fuel z j : Nat) (v : List Bool), (filterGo fuel v half z p).getD j false = false →
      v.getD j false = false ∨ (∃ k, j = z + k * p ∧ j < half) := by
  intro fuel
  induction fuel with
  | zero => intro z j v h; exact Or.inl h
  | succ fuel ih =>
    intro z j v h
    simp only [filterGo] at h
    by_cases hz : z < half
    · rw [if_pos hz] at h
      rcases ih (z + p) j _ h with h' | ⟨k, hk, hkh⟩
      · by_cases hzj : z = j
        · subst hzj
          exact Or.inr ⟨0, by omega, hz⟩
        · rw [getD_set_ne _ _ _ _ hzj] at h'
          exact Or.inl h'
      · refine Or.inr ⟨k + 1, ?_, hkh⟩
        have : (k + 1) * p = k * p + p := Nat.succ_mul k p
        omega
    · rw [if_neg hz] at h
      exact Or.inl h

theorem sieveFilter_length (v : List Bool) (limit c p : Nat) :
    (sieveFilter v limit c p).length = v.length := filterGo_length _ _ _ _ v

theorem sieveFilter_mono (v : List Bool) (limit c p j : Nat) (h : v.getD j false = false) :
    (sieveFilter v limit c p).getD j false = false := filterGo_mono _ _ _ _ _ v h

/-- Whatever an invocation of the Rust `filter` clears carries an odd composite
number: a cleared index `j < limit / 2` satisfies `2*j+1 = (2c+1) * (2c+1+2k)`. -/
theorem sieveFilter_false_of (v : List Bool) (limit c j : Nat) (hc : 1 ≤ c)
    (h : (sieveFilter v limit c (2 * c + 1)).getD j false = false) :
    v.getD j false = false ∨ (j < limit / 2 ∧ ¬ Nat.Prime (2 * j + 1)) := by
  rcases filterGo_false_of _ _ _ _ _ _ h with h' | ⟨k, hk, hkh⟩
  · exact Or.inl h'
  · right
    refine ⟨hkh, ?_⟩
    have he : 2 * j + 1 = (2 * c + 1) * (2 * c + 1 + 2 * k) := by
      subst hk
      ring
    rw [he]
    exact notPrime_mul (by omega) (by omega)

/-! ### The main scanning loop -/

theorem sieveLoop_length (limit bound : Nat) :
    ∀ (fuel check tick : Nat) (v : List Bool),
      (sieveLoop fuel v limit bound check tick).length = v.length := by
  intro fuel
  induction fuel with
  | zero => intro check tick v; rfl
  | succ fuel ih =>
    intro check tick v
    simp only [sieveLoop]
    split
    · rw [ih]
      split
      · exact sieveFilter_length _ _ _ _
      · rfl
    · rfl

theorem sieveLoop_mono (limit bound j : Nat) :
    ∀ (fuel check tick : Nat) (v : List Bool), v.getD j false = false →
      (sieveLoop fuel v limit bound check tick).getD j false = false := by
  intro fuel
  induction fuel with
  | zero => intro check tick v h; exact h
  | succ fuel ih =>
    intro check tick v h
    simp only [sieveLoop]
    split
    · apply ih
      split
      · exact sieveFilter_mono _ _ _ _ _ h
      · exact h
    · exact h

/-- Conversion helper: the dedicated multiples-of-3 pass is `filter` at
`check = 1`, `p = 3 = 2*1+1`. -/
theorem sieveFilter3_false_of (v : List Bool) (limit j : Nat)
    (h : (sieveFilter v limit 1 3).getD j false = false) :
    v.getD j false = false ∨ (j < limit / 2 ∧ ¬ Nat.Prime (2 * j + 1)) := by
  have h' : (sieveFilter v limit 1 (2 * 1 + 1)).getD j false = false := h
  exact sieveFilter_false_of v limit 1 j (by omega) h'

/-- Everything the main loop ever clears (beyond what was already cleared)
lies below `limit / 2` and carries a composite number. -/
theorem sieveLoop_false_of (limit bound j : Nat) :
    ∀ (fuel check tick : Nat) (v : List Bool), 1 ≤ check →
      (sieveLoop fuel v limit bound check tick).getD j false = false →
      v.getD j false = false ∨ (j < limit / 2 ∧ ¬ Nat.Prime (2 * j + 1)) := by
  intro fuel
  induction fuel with
  | zero => intro check tick v _ h; exact Or.inl h
  | succ fuel ih =>
    intro check tick v hc h
    simp only [sieveLoop] at h
    by_cases hcb : check ≤ bound
    · rw [if_pos hcb] at h
      rcases ih (check + tick) (3 - tick) _ (by omega) h with h' | hbig
      · by_cases hfl : v.getD check false = true
        · rw [if_pos hfl] at h'
          exact sieveFilter_false_of _ _ _ _ hc h'
        · rw [if_neg hfl] at h'
          exact Or.inl h'
      · exact Or.inr hbig
    · rw [if_neg hcb] at h
      exact Or.inl h

/-- Soundness of the wheel walk: the loop started at `(check, tick)` visits
every candidate `c` in `[check, bound]` with `c % 3 ≠ 1`; when `2*c+1` is prime
(so the flag at `c` is still set) the corresponding `filter` call clears every
index `2*c*(c+1) + k*(2*c+1)` below `limit / 2`. -/
theorem sieveLoopSound (limit bound : Nat) :
    ∀ (fuel check tick c k j : Nat) (v : List Bool),
      (tick = 1 ∧ check % 3 = 2 ∨ tick = 2 ∧ check % 3 = 0) →
      2 ≤ check →
      bound + 1 ≤ check + fuel →
      bound < v.length →
      (∀ m, m < v.length → v.getD m false = false → ¬ Nat.Prime (2 * m + 1)) →
      check ≤ c → c ≤ bound → c % 3 ≠ 1 → Nat.Prime (2 * c + 1) →
      j = 2 * c * (c + 1) + k * (2 * c + 1) → j < limit / 2 →
      (sieveLoop fuel v limit bound check tick).getD j false = false := by
  intro fuel
  induction fuel with
  | zero =>
    intro check tick c k j v hW h2 hfuel hblen hI hcc hcb hc3 hcp hj hjh
    omega
  | succ fuel ih =>
    intro check tick c k j v hW h2 hfuel hblen hI hcc hcb hc3 hcp hj hjh
    have htick : tick = 1 ∨ tick = 2 := by rcases hW with ⟨h, _⟩ | ⟨h, _⟩ <;> omega
    have hcheckb : check ≤ bound := le_trans hcc hcb
    simp only [sieveLoop, if_pos hcheckb]
    by_cases hceq : c = check
    · subst hceq
      have hflag : v.getD c false = true := by
        cases hb : v.getD c false with
        | false => exact absurd hcp (hI c (by omega) hb)
        | true => rfl
      rw [if_pos hflag]
      apply sieveLoop_mono
      unfold sieveFilter
      exact filterGo_cleared _ _ _ _ k j v (by omega) hj hjh
    · have hnext : check + tick ≤ c := by
        rcases hW with ⟨ht, hm⟩ | ⟨ht, hm⟩ <;> omega
      have hW' : 3 - tick = 1 ∧ (check + tick) % 3 = 2 ∨
          3 - tick = 2 ∧ (check + tick) % 3 = 0 := by
        rcases hW with ⟨ht, hm⟩ | ⟨ht, hm⟩
        · right; omega
        · left; omega
      by_cases hfl : v.getD check false = true
      · rw [if_pos hfl]
        refine ih _ _ c k j _ hW' (by omega) (by omega) ?_ ?_ hnext hcb hc3 hcp hj hjh
        · rw [sieveFilter_length]
          exact hblen
        · intro m hm hfalse
          rw [sieveFilter_length] at hm
          rcases sieveFilter_false_of _ _ _ _ (by omega) hfalse with h' | ⟨_, hnp⟩
          · exact hI m hm h'
          · exact hnp
      · rw [if_neg hfl]
        exact ih _ _ c k j _ hW' (by omega) (by omega) hblen hI hnext hcb hc3 hcp hj hjh

/-! ### The assembled sieve -/

theorem sieve_v_eq (L : Nat) :
    (Primes.sieve L).v =
      sieveLoop (floorSqrt (max 10 L) + 1 + 1)
        (sieveFilter ((List.replicate ((max 10 L + 1) / 2) true).set 0 false) (max 10 L) 1 3)
        (max 10 L) (floorSqrt (max 10 L) + 1) 2 1 := rfl

theorem sieve_length (L : Nat) : (Primes.sieve L).v.length = (max 10 L + 1) / 2 := by
  rw [sieve_v_eq, sieveLoop_length, sieveFilter_length, List.length_set, List.length_replicate]

theorem sieve_upper_bound_eq (L : Nat) :
    (Primes.sieve L).upper_bound = 2 * ((max 10 L + 1) / 2 - 1) + 1 := by
  unfold Primes.upper_bound
  rw [sieve_length]
  omega

theorem sieve_flag_zero (L : Nat) : (Primes.sieve L).v.getD 0 false = false := by
  rw [sieve_v_eq]
  apply sieveLoop_mono
  apply sieveFilter_mono
  exact getD_set_false _ 0

/-- Completeness of the sieve: no prime ever loses its flag. -/
theorem sieve_true_of_prime (L i : Nat) (hi : i < (max 10 L + 1) / 2)
    (hp : Nat.Prime (2 * i + 1)) : (Primes.sieve L).v.getD i false = true := by
  cases hb : (Primes.sieve L).v.getD i false with
  | true => rfl
  | false =>
    exfalso
    rw [sieve_v_eq] at hb
    rcases sieveLoop_false_of _ _ _ _ _ _ _ (by omega) hb with h2 | ⟨_, hnp⟩
    · rcases sieveFilter3_false_of _ _ _ h2 with h3 | ⟨_, hnp⟩
      · by_cases hi0 : i = 0
        · subst hi0
          exact Nat.not_prime_one (by simpa using hp)
        · rw [getD_replicate_set _ _ hi] at h3
          simp [hi0] at h3
      · exact hnp hp
    · exact hnp hp

/-- Soundness of the sieve below `limit / 2`: every odd composite in that range
has its flag cleared. -/
theorem sieve_false_of_composite (L i : Nat) (h1 : 1 ≤ i) (hlt : i < max 10 L / 2)
    (hcomp : ¬ Nat.Prime (2 * i + 1)) : (Primes.sieve L).v.getD i false = false := by
  have h10 : 10 ≤ max 10 L := le_max_left 10 L
  set M := max 10 L with hM
  set m := 2 * i + 1 with hm
  have hmne1 : m ≠ 1 := by omega
  have hp := Nat.minFac_prime hmne1
  have hpd := Nat.minFac_dvd m
  have hmodd : ¬ 2 ∣ m := by omega
  have hpne2 : m.minFac ≠ 2 := fun h => hmodd (h ▸ hpd)
  have hpodd : m.minFac % 2 = 1 := Nat.odd_iff.mp (hp.odd_of_ne_two hpne2)
  have hpsq : m.minFac * m.minFac ≤ m := by
    have h' := Nat.minFac_sq_le_self (by omega) hcomp
    rw [pow_two] at h'
    exact h'
  set p := m.minFac with hpdef
  have hple : p ≤ m := Nat.le_of_dvd (by omega) hpd
  have hmM : m ≤ M := by omega
  set t := m / p with ht
  have hmt : m = p * t := (Nat.mul_div_cancel' hpd).symm
  have hp2 := hp.two_le
  have hpt : p ≤ t := by
    by_contra hcon
    push_neg at hcon
    nlinarith
  have htodd : t % 2 = 1 := by
    by_contra hcon
    have h2t : 2 ∣ t := by omega
    exact hmodd (by rw [hmt]; exact Dvd.dvd.mul_left h2t p)
  obtain ⟨k, hk⟩ : ∃ k, t = p + 2 * k := ⟨(t - p) / 2, by omega⟩
  by_cases hpeq3 : p = 3
  · have e1 : m = 3 * (3 + 2 * k) := by
      rw [hmt, hk, hpeq3]
    have hieq : i = 4 + k * 3 := by omega
    rw [sieve_v_eq]
    apply sieveLoop_mono
    unfold sieveFilter
    exact filterGo_cleared _ _ _ _ k i _ (by omega) (by omega) hlt
  · have hp5 : 5 ≤ p := by omega
    set c := (p - 1) / 2 with hc
    have hpc : p = 2 * c + 1 := by omega
    have hc2 : 2 ≤ c := by omega
    have hpsqM : p * p ≤ M := le_trans hpsq hmM
    have hpfs : p ≤ floorSqrt M := le_floorSqrt M p (by omega) hpsqM
    have hcb : c ≤ floorSqrt M + 1 := by omega
    have hc3 : c % 3 ≠ 1 := by
      intro hc3'
      have h3p : 3 ∣ p := by omega
      have h3eq := (Nat.prime_dvd_prime_iff_eq Nat.prime_three hp).mp h3p
      omega
    have hcp : Nat.Prime (2 * c + 1) := by
      rw [← hpc]
      exact hp
    have hij : i = 2 * c * (c + 1) + k * (2 * c + 1) := by
      have e1 : m = (2 * c + 1) * (2 * c + 1 + 2 * k) := by
        rw [hmt, hk, hpc]
      have e2 : 2 * (2 * c * (c + 1) + k * (2 * c + 1)) + 1 =
          (2 * c + 1) * (2 * c + 1 + 2 * k) := by ring
      omega
    rw [sieve_v_eq]
    refine sieveLoopSound M (floorSqrt M + 1) (floorSqrt M + 1 + 1) 2 1 c k i _
      (Or.inl ⟨rfl, rfl⟩) (le_refl 2) (by omega) ?_ ?_ (by omega) hcb hc3 hcp hij hlt
    · rw [sieveFilter_length, List.length_set, List.length_replicate]
      exact bound_lt_len M h10
    · intro mm hmm hfalse
      rcases sieveFilter3_false_of _ _ _ hfalse with h3 | ⟨_, hnp⟩
      · rw [sieveFilter_length, List.length_set, List.length_replicate] at hmm
        by_cases hmm0 : mm = 0
        · subst hmm0
          exact fun hq => Nat.not_prime_one (by simpa using hq)
        · rw [getD_replicate_set _ _ hmm] at h3
          simp [hmm0] at h3
      · exact hnp

/-- For an odd (clamped) limit the very last flag — the one for the number
`limit` itself — is never cleared: the `filter` loops stop strictly below
`limit / 2`. -/
theorem sieve_boundary (L : Nat) (hodd : (max 10 L) % 2 = 1) :
    (Primes.sieve L).v.getD ((max 10 L + 1) / 2 - 1) false = true := by
  have h10 : 10 ≤ max 10 L := le_max_left 10 L
  cases hb : (Primes.sieve L).v.getD ((max 10 L + 1) / 2 - 1) false with
  | true => rfl
  | false =>
    exfalso
    rw [sieve_v_eq] at hb
    rcases sieveLoop_false_of _ _ _ _ _ _ _ (by omega) hb with h2 | ⟨hlt, _⟩
    · rcases sieveFilter3_false_of _ _ _ h2 with h3 | ⟨hlt, _⟩
      · rw [getD_replicate_set _ _ (by omega)] at h3
        simp at h3
        omega
      · omega
    · omega

/-- Full characterization of the flags of `Primes.sieve L`: a flag is set iff
its number is prime, or it is the last flag and the clamped limit is odd. -/
theorem sieve_getD_iff (L i : Nat) (hi : i < (max 10 L + 1) / 2) :
    ((Primes.sieve L).v.getD i false = true ↔
      Nat.Prime (2 * i + 1) ∨ (max 10 L) % 2 = 1 ∧ i = (max 10 L + 1) / 2 - 1) := by
  have h10 : 10 ≤ max 10 L := le_max_left 10 L
  constructor
  · intro htrue
    by_contra hcon
    push_neg at hcon
    obtain ⟨hnp, hnb⟩ := hcon
    have h1 : 1 ≤ i := by
      rcases Nat.eq_zero_or_pos i with rfl | h
      · rw [sieve_flag_zero] at htrue
        exact Bool.noConfusion htrue
      · exact h
    have hlt : i < max 10 L / 2 := by
      rcases (show (max 10 L) % 2 = 0 ∨ (max 10 L) % 2 = 1 by omega) with he | ho
      · omega
      · have := hnb ho
        omega
    have hfalse := sieve_false_of_composite L i h1 hlt hnp
    rw [htrue] at hfalse
    exact Bool.noConfusion hfalse
  · intro h
    rcases h with hp | ⟨hodd, hieq⟩
    · exact sieve_true_of_prime L i hi hp
    · subst hieq
      exact sieve_boundary L hodd

/-! ### The iterator -/

theorem nextOdd_none (items : List (Nat × Bool)) :
    ∀ r, nextOdd items = (none, r) → collectOddF items = [] := by
  induction items with
  | nil => intro r _; rfl
  | cons y t ih =>
    intro r h
    obtain ⟨i, b⟩ := y
    cases b with
    | true => simp [nextOdd] at h
    | false =>
      simp only [nextOdd, Bool.false_eq_true, if_false] at h
      simp only [collectOddF, Bool.false_eq_true, if_false]
      exact ih r h

theorem nextOdd_some (items : List (Nat × Bool)) :
    ∀ x rest, nextOdd items = (some x, rest) →
      collectOddF items = x :: collectOddF rest ∧ rest.length < items.length := by
  induction items with
  | nil => intro x rest h; simp [nextOdd] at h
  | cons y t ih =>
    intro x rest h
    obtain ⟨i, b⟩ := y
    cases b with
    | true =>
      simp only [nextOdd, if_pos rfl] at h
      obtain ⟨hx, hr⟩ := Prod.mk.injEq .. ▸ h
      injection h with h1 h2
      injection h1 with h1
      subst h1
      subst h2
      constructor
      · simp [collectOddF]
      · simp
    | false =>
      simp only [nextOdd, Bool.false_eq_true, if_false] at h
      obtain ⟨h1, h2⟩ := ih x rest h
      constructor
      · simp only [collectOddF, Bool.false_eq_true, if_false]
        exact h1
      · simp only [List.length_cons]
        omega

theorem popBack_none (items : List (Nat × Bool)) :
    ∀ r, popBack items = (none, r) → collectOddB items = [] ∧ r = [] := by
  induction items with
  | nil =>
    intro r h
    injection h with _ h2
    exact ⟨rfl, h2.symm⟩
  | cons y t ih =>
    intro r h
    simp only [popBack] at h
    rcases hpt : popBack t with ⟨o, rest'⟩
    rw [hpt] at h
    cases o with
    | some z => simp at h
    | none =>
      by_cases hb : y.2 = true
      · rw [if_pos hb] at h
        simp at h
      · rw [if_neg hb] at h
        injection h with _ h2
        have hB := (ih rest' hpt).1
        refine ⟨?_, h2.symm⟩
        simp only [collectOddB, hB, if_neg hb, List.nil_append]

theorem popBack_some (items : List (Nat × Bool)) :
    ∀ x rest, popBack items = (some x, rest) →
      collectOddB items = x :: collectOddB rest ∧ rest.length < items.length := by
  induction items with
  | nil => intro x rest h; simp [popBack] at h
  | cons y t ih =>
    intro x rest h
    simp only [popBack] at h
    rcases hpt : popBack t with ⟨o, rest'⟩
    rw [hpt] at h
    cases o with
    | some z =>
      injection h with h1 h2
      injection h1 with h1
      subst h1
      subst h2
      obtain ⟨hB, hlen⟩ := ih z rest' hpt
      constructor
      · simp only [collectOddB, hB, List.cons_append]
      · simp only [List.length_cons]
        omega
    | none =>
      have hB := (popBack_none t rest' hpt).1
      by_cases hb : y.2 = true
      · rw [if_pos hb] at h
        injection h with h1 h2
        injection h1 with h1
        subst h1
        subst h2
        constructor
        · simp only [collectOddB, hB, List.nil_append, if_pos hb, collectOddB]
        · simp only [List.length_nil, List.length_cons]
          omega
      · rw [if_neg hb] at h
        simp at h

theorem next_two (items : List (Nat × Bool)) :
    (PrimeIterator.mk true items).next = (some 2, PrimeIterator.mk false items) := rfl

theorem collectFF_eq (fuel : Nat) :
    ∀ s : PrimeIterator, s.items.length + (if s.two then 1 else 0) ≤ fuel →
      collectFF fuel s = (if s.two then [2] else []) ++ collectOddF s.items := by
  induction fuel with
  | zero =>
    intro s hm
    obtain ⟨tw, items⟩ := s
    cases tw
    · simp only at hm
      have : items = [] := List.eq_nil_of_length_eq_zero (by omega)
      subst this
      rfl
    · simp at hm
  | succ fuel ih =>
    intro s hm
    obtain ⟨tw, items⟩ := s
    cases tw
    · have hm' : items.length ≤ fuel + 1 := by simpa using hm
      rcases hno : nextOdd items with ⟨o, rest⟩
      cases o with
      | some x =>
        obtain ⟨hF, hlen⟩ := nextOdd_some items x rest hno
        have hstep : collectFF (fuel + 1) (PrimeIterator.mk false items) =
            x :: collectFF fuel (PrimeIterator.mk false rest) := by
          simp [collectFF, PrimeIterator.next, hno]
        have hmeas : (PrimeIterator.mk false rest).items.length +
            (if (PrimeIterator.mk false rest).two then 1 else 0) ≤ fuel := by
          simp
          omega
        rw [hstep, ih (PrimeIterator.mk false rest) hmeas]
        simp [hF]
      | none =>
        have hF := nextOdd_none items rest hno
        have hstep : collectFF (fuel + 1) (PrimeIterator.mk false items) = [] := by
          simp [collectFF, PrimeIterator.next, hno]
        rw [hstep]
        simp [hF]
    · have hm' : items.length + 1 ≤ fuel + 1 := by simpa using hm
      have hstep : collectFF (fuel + 1) (PrimeIterator.mk true items) =
          2 :: collectFF fuel (PrimeIterator.mk false items) := by
        simp [collectFF, next_two]
      have hmeas : (PrimeIterator.mk false items).items.length +
          (if (PrimeIterator.mk false items).two then 1 else 0) ≤ fuel := by
        simp
        omega
      rw [hstep, ih (PrimeIterator.mk false items) hmeas]
      rfl

theorem collectBF_eq (fuel : Nat) :
    ∀ s : PrimeIterator, s.items.length + (if s.two then 1 else 0) ≤ fuel →
      collectBF fuel s = collectOddB s.items ++ (if s.two then [2] else []) := by
  induction fuel with
  | zero =>
    intro s hm
    obtain ⟨tw, items⟩ := s
    cases tw
    · simp only at hm
      have : items = [] := List.eq_nil_of_length_eq_zero (by omega)
      subst this
      rfl
    · simp at hm
  | succ fuel ih =>
    intro s hm
    obtain ⟨tw, items⟩ := s
    rcases hpb : popBack items with ⟨o, rest⟩
    cases o with
    | some x =>
      obtain ⟨hB, hlen⟩ := popBack_some items x rest hpb
      have hstep : collectBF (fuel + 1) (PrimeIterator.mk tw items) =
          x :: collectBF fuel (PrimeIterator.mk tw rest) := by
        simp only [collectBF, PrimeIterator.next_back, hpb]
      rw [hstep, ih (PrimeIterator.mk tw rest) (by simp only at hm ⊢; omega)]
      simp only [hB, List.cons_append]
    | none =>
      obtain ⟨hB, hrest⟩ := popBack_none items rest hpb
      cases tw
      · have hstep : collectBF (fuel + 1) (PrimeIterator.mk false items) = [] := by
          simp only [collectBF, PrimeIterator.next_back, hpb, Bool.false_eq_true, if_false]
        rw [hstep]
        simp only [hB, Bool.false_eq_true, if_false, List.append_nil]
      · have hstep : collectBF (fuel + 1) (PrimeIterator.mk true items) =
            2 :: collectBF fuel (PrimeIterator.mk false []) := by
          simp [collectBF, PrimeIterator.next_back, hpb]
        rw [hstep, ih (PrimeIterator.mk false []) (by simp)]
        simp only [hB]
        rfl

theorem collectForward_eq (s : PrimeIterator) :
    collectForward s = (if s.two then [2] else []) ++ collectOddF s.items :=
  collectFF_eq _ s (by split <;> omega)

theorem collectBackward_eq (s : PrimeIterator) :
    collectBackward s = collectOddB s.items ++ (if s.two then [2] else []) :=
  collectBF_eq _ s (by split <;> omega)

theorem collectOddF_eq_reverse (items : List (Nat × Bool)) :
    collectOddF items = (collectOddB items).reverse := by
  induction items with
  | nil => rfl
  | cons y t ih =>
    obtain ⟨i, b⟩ := y
    cases b
    · simp [collectOddF, collectOddB, ih]
    · simp [collectOddF, collectOddB, ih]

/-! ### The enumerated bit vector -/

theorem mem_enumFrom_iff (l : List Bool) :
    ∀ (s i : Nat) (b : Bool), (i, b) ∈ List.enumFrom s l ↔
      s ≤ i ∧ i - s < l.length ∧ l.getD (i - s) false = b := by
  induction l with
  | nil => intro s i b; simp [List.enumFrom]
  | cons a t ih =>
    intro s i b
    rw [List.enumFrom_cons, List.mem_cons]
    constructor
    · rintro (h | h)
      · injection h with h1 h2
        subst h1
        subst h2
        exact ⟨le_refl i, by simp, by simp⟩
      · obtain ⟨h1, h2, h3⟩ := (ih (s + 1) i b).mp h
        have hk : i - s = (i - (s + 1)) + 1 := by omega
        refine ⟨by omega, ?_, ?_⟩
        · rw [hk]
          simp only [List.length_cons]
          omega
        · rw [hk, List.getD_cons_succ]
          exact h3
    · rintro ⟨h1, h2, h3⟩
      by_cases his : i = s
      · left
        subst his
        rw [Nat.sub_self, List.getD_cons_zero] at h3
        rw [← h3]
      · right
        apply (ih (s + 1) i b).mpr
        have hk : i - s = (i - (s + 1)) + 1 := by omega
        rw [hk] at h2 h3
        rw [List.getD_cons_succ] at h3
        simp only [List.length_cons] at h2
        exact ⟨by omega, by omega, h3⟩

theorem enum_mem_iff (l : List Bool) (i : Nat) (b : Bool) :
    (i, b) ∈ l.enum ↔ i < l.length ∧ l.getD i false = b := by
  have he : l.enum = List.enumFrom 0 l := rfl
  rw [he, mem_enumFrom_iff]
  simp only [Nat.sub_zero]
  constructor
  · rintro ⟨_, h2, h3⟩
    exact ⟨h2, h3⟩
  · rintro ⟨h2, h3⟩
    exact ⟨Nat.zero_le i, h2, h3⟩

theorem enumFrom_pairwise (l : List Bool) :
    ∀ s, (List.enumFrom s l).Pairwise (fun a b => a.1 < b.1) := by
  induction l with
  | nil => intro s; simp
  | cons a t ih =>
    intro s
    rw [List.enumFrom_cons, List.pairwise_cons]
    refine ⟨?_, ih (s + 1)⟩
    intro y hy
    obtain ⟨yi, yb⟩ := y
    have h1 := ((mem_enumFrom_iff t (s + 1) yi yb).mp hy).1
    show s < yi
    omega

theorem enum_pairwise (l : List Bool) : l.enum.Pairwise (fun a b => a.1 < b.1) :=
  enumFrom_pairwise l 0

/-! ### Membership and order of the collected values -/

theorem collectOddF_mem (items : List (Nat × Bool)) (x : Nat) :
    x ∈ collectOddF items ↔ ∃ i, (i, true) ∈ items ∧ x = 2 * i + 1 := by
  induction items with
  | nil => simp [collectOddF]
  | cons y t ih =>
    obtain ⟨i, b⟩ := y
    cases b
    · rw [show collectOddF ((i, false) :: t) = collectOddF t from by simp [collectOddF], ih]
      constructor
      · rintro ⟨j, hj, rfl⟩
        exact ⟨j, List.mem_cons_of_mem _ hj, rfl⟩
      · rintro ⟨j, hj, rfl⟩
        rcases List.mem_cons.mp hj with heq | hmem
        · exact absurd heq (by simp)
        · exact ⟨j, hmem, rfl⟩
    · rw [show collectOddF ((i, true) :: t) = (2 * i + 1) :: collectOddF t from by
        simp [collectOddF], List.mem_cons]
      constructor
      · rintro (rfl | hmem)
        · exact ⟨i, List.mem_cons_self _ _, rfl⟩
        · obtain ⟨j, hj, rfl⟩ := ih.mp hmem
          exact ⟨j, List.mem_cons_of_mem _ hj, rfl⟩
      · rintro ⟨j, hj, rfl⟩
        rcases List.mem_cons.mp hj with heq | hmem
        · left
          injection heq with h1 _
          rw [h1]
        · right
          exact ih.mpr ⟨j, hmem, rfl⟩

theorem collectOddF_pairwise (items : List (Nat × Bool))
    (h : items.Pairwise (fun a b => a.1 < b.1)) : (collectOddF items).Pairwise (· < ·) := by
  induction items with
  | nil => simp [collectOddF]
  | cons y t ih =>
    obtain ⟨i, b⟩ := y
    rw [List.pairwise_cons] at h
    cases b
    · rw [show collectOddF ((i, false) :: t) = collectOddF t from by simp [collectOddF]]
      exact ih h.2
    · rw [show collectOddF ((i, true) :: t) = (2 * i + 1) :: collectOddF t from by
        simp [collectOddF], List.pairwise_cons]
      refine ⟨?_, ih h.2⟩
      intro x hx
      obtain ⟨j, hj, rfl⟩ := (collectOddF_mem t x).mp hx
      have := h.1 (j, true) hj
      simp only at this
      omega

/-! ### The prime list of a sieve store -/

theorem primesList_eq (P : Primes) : primesList P = 2 :: collectOddF P.v.enum := by
  rw [primesList, collectForward_eq]
  rfl

theorem mem_primesList_sieve (L x : Nat) :
    x ∈ primesList (Primes.sieve L) ↔
      x = 2 ∨ ∃ i, i < (max 10 L + 1) / 2 ∧ (Primes.sieve L).v.getD i false = true ∧
        x = 2 * i + 1 := by
  rw [primesList_eq, List.mem_cons]
  constructor
  · rintro (rfl | hmem)
    · exact Or.inl rfl
    · obtain ⟨i, hi, rfl⟩ := (collectOddF_mem _ _).mp hmem
      obtain ⟨hl, hg⟩ := (enum_mem_iff _ _ _).mp hi
      right
      exact ⟨i, by rwa [sieve_length] at hl, hg, rfl⟩
  · rintro (rfl | ⟨i, hlen, hflag, rfl⟩)
    · exact Or.inl rfl
    · right
      apply (collectOddF_mem _ _).mpr
      refine ⟨i, (enum_mem_iff _ _ _).mpr ⟨?_, hflag⟩, rfl⟩
      rwa [sieve_length]

theorem primesList_sieve_two_le (L c : Nat) (hc : c ∈ primesList (Primes.sieve L)) :
    2 ≤ c := by
  rcases (mem_primesList_sieve L c).mp hc with rfl | ⟨i, hlen, hflag, rfl⟩
  · exact le_refl 2
  · rcases Nat.eq_zero_or_pos i with rfl | h
    · rw [sieve_flag_zero] at hflag
      exact Bool.noConfusion hflag
    · omega

theorem primesList_sieve_le_ub (L c : Nat) (hc : c ∈ primesList (Primes.sieve L)) :
    c ≤ (Primes.sieve L).upper_bound := by
  have h10 : 10 ≤ max 10 L := le_max_left 10 L
  rw [sieve_upper_bound_eq]
  rcases (mem_primesList_sieve L c).mp hc with rfl | ⟨i, hlen, _, rfl⟩
  · omega
  · omega

theorem primesList_sieve_pairwise (L : Nat) :
    (primesList (Primes.sieve L)).Pairwise (· < ·) := by
  rw [primesList_eq, List.pairwise_cons]
  refine ⟨?_, collectOddF_pairwise _ (enum_pairwise _)⟩
  intro x hx
  obtain ⟨i, hi, rfl⟩ := (collectOddF_mem _ _).mp hx
  obtain ⟨hl, hflag⟩ := (enum_mem_iff _ _ _).mp hi
  rcases Nat.eq_zero_or_pos i with rfl | h
  · rw [sieve_flag_zero] at hflag
    exact Bool.noConfusion hflag
  · omega

/-- Every prime below the upper bound is produced by the iterator: the sieve
never clears a prime flag, and 2 is synthesized. -/
theorem prime_mem_primesList_sieve (L r : Nat) (hr : Nat.Prime r)
    (hle : r ≤ (Primes.sieve L).upper_bound) : r ∈ primesList (Primes.sieve L) := by
  have h10 : 10 ≤ max 10 L := le_max_left 10 L
  apply (mem_primesList_sieve L r).mpr
  by_cases h2 : r = 2
  · exact Or.inl h2
  · right
    have hodd : r % 2 = 1 := Nat.odd_iff.mp (hr.odd_of_ne_two h2)
    have hilen : r / 2 < (max 10 L + 1) / 2 := by
      rw [sieve_upper_bound_eq] at hle
      omega
    refine ⟨r / 2, hilen, ?_, by omega⟩
    apply (sieve_getD_iff L (r / 2) hilen).mpr
    left
    have h2i : 2 * (r / 2) + 1 = r := by omega
    rw [h2i]
    exact hr

/-! ### The division loop of the factorizer -/

theorem divLoopGo_spec (p : Nat) (hp : 2 ≤ p) :
    ∀ (fuel n count : Nat), 1 ≤ n → n ≤ fuel →
      ∃ k n', divLoopGo fuel p n count = (n', count + k) ∧ n = n' * p ^ k ∧
        ¬ p ∣ n' ∧ 1 ≤ n' := by
  intro fuel
  induction fuel with
  | zero => intro n count h1 hf; omega
  | succ fuel ih =>
    intro n count h1 hf
    simp only [divLoopGo]
    by_cases hmod : n % p = 0
    · rw [if_pos hmod]
      have hdvd : p ∣ n := Nat.dvd_of_mod_eq_zero hmod
      have hlt : n / p < n := Nat.div_lt_self (by omega) (by omega)
      have hpos : 1 ≤ n / p := (Nat.one_le_div_iff (by omega)).mpr (Nat.le_of_dvd (by omega) hdvd)
      obtain ⟨k, n', heq, hfact, hnd, hn'⟩ := ih (n / p) (count + 1) hpos (by omega)
      refine ⟨k + 1, n', ?_, ?_, hnd, hn'⟩
      · rw [heq]
        congr 1
        omega
      · have hnp : n = p * (n / p) := (Nat.mul_div_cancel' hdvd).symm
        rw [hnp, hfact]
        ring
    · rw [if_neg hmod]
      refine ⟨0, n, by simp, by simp, ?_, h1⟩
      intro hd
      exact hmod (Nat.mod_eq_zero_of_dvd hd)

theorem divOut_spec (p n : Nat) (hp : 2 ≤ p) (h1 : 1 ≤ n) :
    ∃ k n', divOut p n = (n', k) ∧ n = n' * p ^ k ∧ ¬ p ∣ n' ∧ 1 ≤ n' := by
  obtain ⟨k, n', heq, hfact, hnd, hn'⟩ := divLoopGo_spec p hp n n 0 h1 (le_refl n)
  exact ⟨k, n', by simpa using heq, hfact, hnd, hn'⟩

/-! ### The factor loop -/

/-- Master invariant of the `for p in self.primes()` loop of `factor`, for any
strictly increasing list of divisor candidates bounded by `ub` that contains
every prime divisor of `n` not exceeding `ub`.  The loop returns the pairs of
recorded prime powers and a quotient all of whose prime factors exceed `ub`.
Candidates in the list need not be prime themselves: a composite candidate can
never divide the running quotient, because its (smaller) prime factors were
divided out earlier. -/
theorem factorLoop_spec (ub : Nat) :
    ∀ (ps : List Nat) (n : Nat) (ret : List (Nat × Nat)),
      1 ≤ n →
      (∀ c ∈ ps, 2 ≤ c) →
      (∀ c ∈ ps, c ≤ ub) →
      ps.Pairwise (· < ·) →
      (∀ r, Nat.Prime r → r ∣ n → r ∈ ps ∨ ub < r) →
      ∃ pairs n',
        factorLoop ps n ret = (n', ret ++ pairs) ∧
        1 ≤ n' ∧
        n = n' * (pairs.map (fun pe => pe.1 ^ pe.2)).prod ∧
        (pairs.map Prod.fst).Sublist ps ∧
        (∀ pe ∈ pairs, Nat.Prime pe.1 ∧ 1 ≤ pe.2) ∧
        (∀ r, Nat.Prime r → r ∣ n' → ub < r) := by
  intro ps
  induction ps with
  | nil =>
    intro n ret h1 _ _ _ hbig
    refine ⟨[], n, by simp [factorLoop], h1, by simp, by simp, by simp, ?_⟩
    intro r hr hd
    rcases hbig r hr hd with hmem | hub
    · exact absurd hmem (List.not_mem_nil r)
    · exact hub
  | cons p ps ih =>
    intro n ret h1 hmem2 hle hsort hbig
    have hp2 : 2 ≤ p := hmem2 p (List.mem_cons_self p ps)
    by_cases hn1 : n = 1
    · subst hn1
      refine ⟨[], 1, by simp [factorLoop], le_refl 1, by simp, by simp, by simp, ?_⟩
      intro r hr hd
      have h1' := Nat.eq_one_of_dvd_one hd
      exact absurd (h1' ▸ hr) Nat.not_prime_one
    · obtain ⟨k, n1, hdiv, hfact, hnd, hn1pos⟩ := divOut_spec p n hp2 h1
      have hstep : factorLoop (p :: ps) n ret =
          factorLoop ps n1 (if 0 < k then ret ++ [(p, k)] else ret) := by
        simp only [factorLoop, if_neg hn1, hdiv]
      have hn1dvd : n1 ∣ n := ⟨p ^ k, hfact⟩
      have hbig' : ∀ r, Nat.Prime r → r ∣ n1 → r ∈ ps ∨ ub < r := by
        intro r hr hd
        rcases hbig r hr (hd.trans hn1dvd) with hmem | hub
        · rcases List.mem_cons.mp hmem with rfl | hmem'
          · exact absurd hd hnd
          · exact Or.inl hmem'
        · exact Or.inr hub
      have hmem2' : ∀ c ∈ ps, 2 ≤ c := fun c hc => hmem2 c (List.mem_cons_of_mem _ hc)
      have hle' : ∀ c ∈ ps, c ≤ ub := fun c hc => hle c (List.mem_cons_of_mem _ hc)
      have hsort' := (List.pairwise_cons.mp hsort).2
      obtain ⟨pairs, n', heq, hpos', hprod, hsub, hall, hbigfin⟩ :=
        ih n1 (if 0 < k then ret ++ [(p, k)] else ret) hn1pos hmem2' hle' hsort' hbig'
      by_cases hk : 0 < k
      · have hpdvd : p ∣ n := by
          rw [hfact]
          exact Dvd.dvd.mul_left (dvd_pow_self p (by omega)) n1
        have hpprime : Nat.Prime p := by
          by_contra hnp
          have hq := Nat.minFac_prime (show p ≠ 1 by omega)
          have hqd := Nat.minFac_dvd p
          have hqlt : p.minFac < p := by
            have hle2 := Nat.minFac_le (show 0 < p by omega)
            rcases Nat.lt_or_ge p.minFac p with h | h
            · exact h
            · exact absurd (Nat.prime_def_minFac.mpr ⟨hp2, le_antisymm hle2 h⟩) hnp
          rcases hbig p.minFac hq (hqd.trans hpdvd) with hmem | hub
          · rcases List.mem_cons.mp hmem with heq2 | hmem'
            · omega
            · have := (List.pairwise_cons.mp hsort).1 _ hmem'
              omega
          · have hpub : p ≤ ub := hle p (List.mem_cons_self p ps)
            omega
        rw [if_pos hk] at heq
        refine ⟨(p, k) :: pairs, n', ?_, hpos', ?_, ?_, ?_, hbigfin⟩
        · rw [hstep, if_pos hk, heq, List.append_assoc]
          rfl
        · rw [hfact, hprod]
          simp only [List.map_cons, List.prod_cons]
          ring
        · simp only [List.map_cons]
          exact List.Sublist.cons₂ p hsub
        · intro pe hpe
          rcases List.mem_cons.mp hpe with rfl | hpe'
          · exact ⟨hpprime, hk⟩
          · exact hall pe hpe'
      · have hk0 : k = 0 := by omega
        subst hk0
        have hn1n : n1 = n := by simpa using hfact.symm
        rw [if_neg hk] at heq
        refine ⟨pairs, n', ?_, hpos', ?_, ?_, hall, hbigfin⟩
        · rw [hstep, if_neg hk]
          exact heq
        · rw [← hn1n]
          exact hprod
        · exact hsub.cons p

/-! ### Factor assembled -/

/-- Unfolding of `Primes.factor` for nonzero input, given the value of the loop. -/
theorem factor_eq (P : Primes) (n : Nat) (hn : n ≠ 0) (n' : Nat) (pairs : List (Nat × Nat))
    (h : factorLoop (primesList P) n [] = (n', pairs)) :
    P.factor n =
      if n' ≠ 1 then
        if P.upper_bound * P.upper_bound ≥ n' then Except.ok (pairs ++ [(n', 1)])
        else Except.error (n', pairs)
      else Except.ok pairs := by
  unfold Primes.factor
  rw [if_neg hn]
  simp only [h]

/-- The factor loop of a sieve store decomposes `n ≥ 1` into recorded prime
powers drawn from the stored primes and a quotient whose prime factors all
exceed the upper bound. -/
theorem factor_decomp (L n : Nat) (h1 : 1 ≤ n) :
    ∃ pairs n',
      factorLoop (primesList (Primes.sieve L)) n [] = (n', pairs) ∧
      1 ≤ n' ∧
      n = n' * (pairs.map (fun pe => pe.1 ^ pe.2)).prod ∧
      (pairs.map Prod.fst).Sublist (primesList (Primes.sieve L)) ∧
      (∀ pe ∈ pairs, Nat.Prime pe.1 ∧ 1 ≤ pe.2) ∧
      (∀ r, Nat.Prime r → r ∣ n' → (Primes.sieve L).upper_bound < r) := by
  obtain ⟨pairs, n', heq, hpos, hprod, hsub, hall, hbig⟩ :=
    factorLoop_spec (Primes.sieve L).upper_bound (primesList (Primes.sieve L)) n []
      h1 (primesList_sieve_two_le L) (primesList_sieve_le_ub L)
      (primesList_sieve_pairwise L)
      (fun r hr _ => by
        by_cases hle : r ≤ (Primes.sieve L).upper_bound
        · exact Or.inl (prime_mem_primesList_sieve L r hr hle)
        · exact Or.inr (by omega))
  exact ⟨pairs, n', by simpa using heq, hpos, hprod, hsub, hall, hbig⟩

theorem prod_pairs_pos (pairs : List (Nat × Nat))
    (hall : ∀ pe ∈ pairs, Nat.Prime pe.1 ∧ 1 ≤ pe.2) :
    0 < (pairs.map (fun pe => pe.1 ^ pe.2)).prod := by
  apply List.prod_pos
  intro a ha
  obtain ⟨pe, hpe, rfl⟩ := List.mem_map.mp ha
  exact pow_pos (Nat.Prime.pos (hall pe hpe).1) _

/-- A prime exceeding `ub` cannot divide the product of recorded prime powers
whose bases are at most `ub`. -/
theorem large_prime_not_dvd_prod (ub : Nat) (pairs : List (Nat × Nat))
    (hall : ∀ pe ∈ pairs, Nat.Prime pe.1 ∧ 1 ≤ pe.2)
    (hle : ∀ pe ∈ pairs, pe.1 ≤ ub)
    (r : Nat) (hr : Nat.Prime r) (hub : ub < r) :
    ¬ r ∣ (pairs.map (fun pe => pe.1 ^ pe.2)).prod := by
  intro hd
  obtain ⟨a, ha, hra⟩ := (Prime.dvd_prod_iff hr.prime).mp hd
  obtain ⟨pe, hpe, rfl⟩ := List.mem_map.mp ha
  have hrp : r ∣ pe.1 := hr.dvd_of_dvd_pow hra
  have h1 := (Nat.prime_dvd_prime_iff_eq hr (hall pe hpe).1).mp hrp
  have h2 := hle pe hpe
  omega

/-! ### Trial-division ground truth -/

theorem isPrimeTD_iff (n : Nat) : isPrimeTD n = true ↔ Nat.Prime n := by
  unfold isPrimeTD
  rw [Bool.and_eq_true, decide_eq_true_eq, List.all_eq_true]
  constructor
  · rintro ⟨h2, hall⟩
    rw [Nat.prime_def_lt]
    refine ⟨h2, ?_⟩
    intro m hm hdvd
    have h := hall m (List.mem_range.mpr hm)
    rw [Bool.or_eq_true, decide_eq_true_eq, decide_eq_true_eq] at h
    rcases h with hlt | hmod
    · rcases (show m = 0 ∨ m = 1 by omega) with rfl | rfl
      · exfalso
        have := Nat.eq_zero_of_zero_dvd hdvd
        omega
      · rfl
    · exact absurd (Nat.mod_eq_zero_of_dvd hdvd) hmod
  · intro hp
    obtain ⟨h2, hmin⟩ := Nat.prime_def_lt.mp hp
    refine ⟨h2, ?_⟩
    intro d hd
    rw [List.mem_range] at hd
    rw [Bool.or_eq_true, decide_eq_true_eq, decide_eq_true_eq]
    by_cases hd2 : d < 2
    · exact Or.inl hd2
    · right
      intro hmod
      have hdvd : d ∣ n := Nat.dvd_of_mod_eq_zero hmod
      have := hmin d hd hdvd
      omega

theorem primeCount_eq_filter_prime (m : Nat) :
    primeCount m = ((List.range (m + 1)).filter (fun k => decide (Nat.Prime k))).length := by
  unfold primeCount
  congr 1
  apply List.filter_congr
  intro x _
  rw [Bool.eq_iff_iff, decide_eq_true_eq]
  exact isPrimeTD_iff x

/-! ### The claims -/

/-- C1: the claim fails on the code.  With limit 15 the store's upper bound is
15, so `n = 15` lies in the claimed range `0 ≤ n ≤ upper_bound()`; yet
`is_prime 15` answers `true` although `15 = 3 * 5` is composite.  The `filter`
loops stop at `zero < limit / 2`, which for an odd clamped limit never reaches
the last flag — the flag of the number `limit` itself — so an odd composite
limit keeps a set flag. -/
theorem C1_is_prime_code_bug :
    (Primes.sieve 15).upper_bound = 15 ∧
    (Primes.sieve 15).is_prime 15 = some true ∧
    ¬ Nat.Prime 15 :=
  ⟨rfl, rfl, by norm_num⟩

/-- C2: for every sieve store and every `1 ≤ n < upper_bound()^2`, `factor`
succeeds; the returned pairs have prime bases in strictly increasing order,
every exponent is at least 1, and the product of the prime powers is `n`
(`n = 1` gives the empty list). -/
theorem C2_factor_roundtrip (L n : Nat) (h1 : 1 ≤ n)
    (hlt : n < (Primes.sieve L).upper_bound ^ 2) :
    ∃ l, (Primes.sieve L).factor n = Except.ok l ∧
      (l.map Prod.fst).Pairwise (· < ·) ∧
      (∀ pe ∈ l, Nat.Prime pe.1 ∧ 1 ≤ pe.2) ∧
      (l.map (fun pe => pe.1 ^ pe.2)).prod = n ∧
      (n = 1 → l = []) := by
  obtain ⟨pairs, n', heq, hpos, hprod, hsub, hall, hbig⟩ := factor_decomp L n h1
  have hfeq := factor_eq (Primes.sieve L) n (by omega) n' pairs heq
  set b := (Primes.sieve L).upper_bound with hb
  have hprodpos : 0 < (pairs.map (fun pe => pe.1 ^ pe.2)).prod := prod_pairs_pos pairs hall
  have hn'le : n' ≤ n := by
    have := Nat.le_mul_of_pos_right n' hprodpos
    omega
  by_cases hn'1 : n' = 1
  · subst hn'1
    rw [if_neg (by simp)] at hfeq
    refine ⟨pairs, hfeq, List.Pairwise.sublist hsub (primesList_sieve_pairwise L), hall, ?_, ?_⟩
    · have h := hprod
      rw [Nat.one_mul] at h
      exact h.symm
    · intro hn1
      subst hn1
      cases pairs with
      | nil => rfl
      | cons pe t =>
        exfalso
        have hp1 : (((pe :: t).map (fun pe => pe.1 ^ pe.2)).prod) = 1 := by
          have h := hprod
          rw [Nat.one_mul] at h
          exact h.symm
        rw [List.map_cons, List.prod_cons] at hp1
        have hdvd1 : pe.1 ^ pe.2 ∣ 1 := ⟨(t.map (fun pe => pe.1 ^ pe.2)).prod, hp1.symm⟩
        have he1 := Nat.eq_one_of_dvd_one hdvd1
        have h2 : 2 ≤ pe.1 := (hall pe (List.mem_cons_self pe t)).1.two_le
        have hge : pe.1 ≤ pe.1 ^ pe.2 :=
          Nat.le_self_pow (by have := (hall pe (List.mem_cons_self pe t)).2; omega) pe.1
        omega
  · have hn'2 : 2 ≤ n' := by omega
    have hn'prime : Nat.Prime n' := by
      by_contra hnp
      have hq := Nat.minFac_prime (show n' ≠ 1 by omega)
      have hqd := Nat.minFac_dvd n'
      have hqub : b < n'.minFac := hbig _ hq hqd
      have hsq : n'.minFac ^ 2 ≤ n' := Nat.minFac_sq_le_self (by omega) hnp
      have hlt2 : b ^ 2 < n'.minFac ^ 2 := Nat.pow_lt_pow_left (by omega) (by omega)
      omega
    have hbn' : b < n' := hbig n' hn'prime dvd_rfl
    have hok : n' ≤ b * b := by
      have hb2 : b ^ 2 = b * b := pow_two b
      omega
    rw [if_pos hn'1, if_pos hok] at hfeq
    refine ⟨pairs ++ [(n', 1)], hfeq, ?_, ?_, ?_, ?_⟩
    · rw [List.map_append, List.pairwise_append]
      refine ⟨List.Pairwise.sublist hsub (primesList_sieve_pairwise L), by simp, ?_⟩
      intro a ha bb hbb
      simp only [List.map_cons, List.map_nil, List.mem_singleton] at hbb
      subst hbb
      have hamem : a ∈ primesList (Primes.sieve L) := hsub.subset ha
      have hale : a ≤ b := primesList_sieve_le_ub L a hamem
      omega
    · intro pe hpe
      rcases List.mem_append.mp hpe with h | h
      · exact hall pe h
      · simp only [List.mem_singleton] at h
        subst h
        exact ⟨hn'prime, le_refl 1⟩
    · rw [List.map_append, List.prod_append]
      simp only [List.map_cons, List.map_nil, List.prod_cons, List.prod_nil, pow_one,
        Nat.mul_one]
      rw [hprod]
      ring
    · intro hn1
      exfalso
      omega

/-- C2 witness at `L = 30`, `n = 12`. -/
theorem C2_factor_roundtrip_witness :
    ∃ l, (Primes.sieve 30).factor 12 = Except.ok l ∧
      (l.map Prod.fst).Pairwise (· < ·) ∧
      (∀ pe ∈ l, Nat.Prime pe.1 ∧ 1 ≤ pe.2) ∧
      (l.map (fun pe => pe.1 ^ pe.2)).prod = 12 ∧
      (12 = 1 → l = []) :=
  C2_factor_roundtrip 30 12 (by norm_num) (by decide)

/-- C3: for a sieve store, `factor 0` fails with the sentinel `(0, [])`, and for
`n ≥ 1` factorization fails exactly when `n` has a prime factor exceeding
`upper_bound()^2` or two (with multiplicity) prime factors exceeding
`upper_bound()`; every other `n ≥ 1` succeeds. -/
theorem C3_factor_failure_iff (L : Nat) :
    (Primes.sieve L).factor 0 = Except.error (0, []) ∧
    ∀ n, 1 ≤ n →
      ((∃ e, (Primes.sieve L).factor n = Except.error e) ↔
        (∃ p, Nat.Prime p ∧ p ∣ n ∧ (Primes.sieve L).upper_bound ^ 2 < p) ∨
        (∃ p q, Nat.Prime p ∧ Nat.Prime q ∧ (Primes.sieve L).upper_bound < p ∧
          (Primes.sieve L).upper_bound < q ∧ p * q ∣ n)) := by
  refine ⟨rfl, ?_⟩
  intro n h1
  obtain ⟨pairs, n', heq, hpos, hprod, hsub, hall, hbig⟩ := factor_decomp L n h1
  have hfeq := factor_eq (Primes.sieve L) n (by omega) n' pairs heq
  set b := (Primes.sieve L).upper_bound with hb
  have hb1 : 1 ≤ b := by
    rw [hb]
    unfold Primes.upper_bound
    omega
  have hall_le : ∀ pe ∈ pairs, pe.1 ≤ b := fun pe hpe =>
    primesList_sieve_le_ub L pe.1 (hsub.subset (List.mem_map_of_mem Prod.fst hpe))
  have hSnd : ∀ r, Nat.Prime r → b < r →
      ¬ r ∣ (pairs.map (fun pe => pe.1 ^ pe.2)).prod :=
    fun r hr hub => large_prime_not_dvd_prod b pairs hall hall_le r hr hub
  have hprodpos := prod_pairs_pos pairs hall
  have hn'le : n' ≤ n := by
    have := Nat.le_mul_of_pos_right n' hprodpos
    omega
  have herr_iff : (∃ e, (Primes.sieve L).factor n = Except.error e) ↔
      (n' ≠ 1 ∧ b * b < n') := by
    constructor
    · rintro ⟨e, he⟩
      by_cases h01 : n' = 1
      · rw [hfeq, if_neg (by simp [h01])] at he
        exact absurd he (by simp)
      · by_cases h02 : b * b ≥ n'
        · rw [hfeq, if_pos h01, if_pos h02] at he
          exact absurd he (by simp)
        · exact ⟨h01, by omega⟩
    · rintro ⟨h01, h02⟩
      refine ⟨(n', pairs), ?_⟩
      rw [hfeq, if_pos h01, if_neg (by omega)]
  rw [herr_iff]
  constructor
  · rintro ⟨h01, h02⟩
    by_cases hn'p : Nat.Prime n'
    · left
      refine ⟨n', hn'p, ⟨(pairs.map (fun pe => pe.1 ^ pe.2)).prod, hprod⟩, ?_⟩
      have hb2 : b ^ 2 = b * b := pow_two b
      omega
    · right
      have hr := Nat.minFac_prime h01
      have hrd := Nat.minFac_dvd n'
      have hrub : b < n'.minFac := hbig _ hr hrd
      have hmm : n' = n'.minFac * (n' / n'.minFac) := (Nat.mul_div_cancel' hrd).symm
      have hm1 : n' / n'.minFac ≠ 1 := by
        intro h
        rw [h, Nat.mul_one] at hmm
        exact hn'p (hmm ▸ hr)
      have hq := Nat.minFac_prime hm1
      have hqd := Nat.minFac_dvd (n' / n'.minFac)
      have hqn' : (n' / n'.minFac).minFac ∣ n' :=
        hqd.trans ⟨n'.minFac, (Nat.div_mul_cancel hrd).symm⟩
      have hqub : b < (n' / n'.minFac).minFac := hbig _ hq hqn'
      refine ⟨n'.minFac, (n' / n'.minFac).minFac, hr, hq, hrub, hqub, ?_⟩
      have hrq : n'.minFac * (n' / n'.minFac).minFac ∣ n' := by
        conv_rhs => rw [hmm]
        exact mul_dvd_mul_left _ hqd
      exact hrq.trans ⟨(pairs.map (fun pe => pe.1 ^ pe.2)).prod, hprod⟩
  · intro hcond
    rcases hcond with ⟨p, hp, hpd, hpbig⟩ | ⟨p, q, hp, hq, hpb, hqb, hpqd⟩
    · have hbsq : b ≤ b ^ 2 := Nat.le_self_pow (by omega) b
      have hbp : b < p := by omega
      have hpn' : p ∣ n' := by
        rcases (hp.dvd_mul).mp (hprod ▸ hpd) with h | h
        · exact h
        · exact absurd h (hSnd p hp hbp)
      have hn'ge : p ≤ n' := Nat.le_of_dvd (by omega) hpn'
      have hb2 : b ^ 2 = b * b := pow_two b
      exact ⟨by omega, by omega⟩
    · have hcp : Nat.Coprime p (pairs.map (fun pe => pe.1 ^ pe.2)).prod :=
        (hp.coprime_iff_not_dvd).mpr (hSnd p hp hpb)
      have hcq : Nat.Coprime q (pairs.map (fun pe => pe.1 ^ pe.2)).prod :=
        (hq.coprime_iff_not_dvd).mpr (hSnd q hq hqb)
      have hcpq := Nat.Coprime.mul hcp hcq
      have hpqn' : p * q ∣ n' := hcpq.dvd_of_dvd_mul_right (by rw [← hprod]; exact hpqd)
      have hn'ge : p * q ≤ n' := Nat.le_of_dvd (by omega) hpqn'
      have hlt2 : b * b < p * q := by
        have h1' : b + 1 ≤ p := by omega
        have h2' : b + 1 ≤ q := by omega
        nlinarith
      have hbb1 : 1 * 1 ≤ b * b := Nat.mul_le_mul hb1 hb1
      exact ⟨by omega, by omega⟩

/-- C3 witness at `L = 30`, `n = 961 = 31²`: two prime factors exceed the upper
bound 29, so `factor` fails. -/
theorem C3_factor_failure_iff_witness :
    ((∃ e, (Primes.sieve 30).factor 961 = Except.error e) ↔
      (∃ p, Nat.Prime p ∧ p ∣ 961 ∧ (Primes.sieve 30).upper_bound ^ 2 < p) ∨
      (∃ p q, Nat.Prime p ∧ Nat.Prime q ∧ (Primes.sieve 30).upper_bound < p ∧
        (Primes.sieve 30).upper_bound < q ∧ p * q ∣ 961)) :=
  (C3_factor_failure_iff 30).2 961 (by norm_num)

/-- C4: whenever `factor n` fails for `n ≥ 1`, the leftover exceeds 1 and
multiplied by the product of the partial pairs gives back `n`; `factor 0` yields
the sentinel `(0, [])`; and the three concrete shapes for a sieve with limit 30
hold. -/
theorem C4_failure_product_identity :
    (∀ (L n lo : Nat) (pairs : List (Nat × Nat)), 1 ≤ n →
      (Primes.sieve L).factor n = Except.error (lo, pairs) →
      1 < lo ∧ lo * (pairs.map (fun pe => pe.1 ^ pe.2)).prod = n) ∧
    (∀ L, (Primes.sieve L).factor 0 = Except.error (0, [])) ∧
    (Primes.sieve 30).factor (31 * 31) = Except.error (961, []) ∧
    (Primes.sieve 30).factor (2 * 3 * 31 * 31) = Except.error (961, [(2, 1), (3, 1)]) := by
  refine ⟨?_, fun L => rfl, rfl, rfl⟩
  intro L n lo pairs h1 herr
  obtain ⟨dpairs, n', heq, hpos, hprod, hsub, hall, hbig⟩ := factor_decomp L n h1
  have hfeq := factor_eq (Primes.sieve L) n (by omega) n' dpairs heq
  rw [hfeq] at herr
  by_cases h01 : n' = 1
  · rw [if_neg (by simp [h01])] at herr
    exact absurd herr (by simp)
  · rw [if_pos h01] at herr
    by_cases h02 : (Primes.sieve L).upper_bound * (Primes.sieve L).upper_bound ≥ n'
    · rw [if_pos h02] at herr
      exact absurd herr (by simp)
    · rw [if_neg h02] at herr
      injection herr with he
      injection he with he1 he2
      subst he1
      subst he2
      exact ⟨by omega, hprod.symm⟩

/-- C4 witness at `L = 30`, `n = 5766 = 2·3·31·31`. -/
theorem C4_failure_product_identity_witness :
    1 < 961 ∧ 961 * (([(2, 1), (3, 1)] : List (Nat × Nat)).map
      (fun pe => pe.1 ^ pe.2)).prod = 5766 :=
  C4_failure_product_identity.1 30 5766 961 [(2, 1), (3, 1)] (by norm_num) rfl

/-- C5: the forward traversal of `primes()` equals the reverse of the backward
traversal for every store, and for limit 50 the forward sequence is exactly the
primes up to 47. -/
theorem C5_forward_eq_backward_reverse :
    (∀ P : Primes, collectForward P.primes = (collectBackward P.primes).reverse) ∧
    collectForward ((Primes.sieve 50).primes) =
      [2, 3, 5, 7, 11, 13, 17, 19, 23, 29, 31, 37, 41, 43, 47] := by
  constructor
  · intro P
    rw [collectForward_eq, collectBackward_eq]
    simp [Primes.primes, collectOddF_eq_reverse]
  · rfl

/-- C5 witness: the universal part applied to a tiny concrete store. -/
theorem C5_forward_eq_backward_reverse_witness :
    collectForward (Primes.mk [false, true, true]).primes =
      (collectBackward (Primes.mk [false, true, true]).primes).reverse :=
  C5_forward_eq_backward_reverse.1 (Primes.mk [false, true, true])

/-- C6: the claim fails on the code.  `piExact` is a sound `estimate_pi`
collaborator (both of its bounds are the true prime count), yet on the fresh
iterator of `sieve 15` the reported range is `[5, 6]` while 7 elements remain:
the bogus always-set flag of the odd composite limit 15 makes the iterator
yield a 15th "prime" that no sound π-estimate accounts for. -/
theorem C6_size_hint_code_bug :
    (∀ m, (piExact m).1 ≤ primeCount m ∧ primeCount m ≤ (piExact m).2) ∧
    (∀ m, primeCount m = ((List.range (m + 1)).filter (fun k => decide (Nat.Prime k))).length) ∧
    PrimeIterator.size_hint piExact ((Primes.sieve 15).primes) = (5, some 6) ∧
    (collectForward ((Primes.sieve 15).primes)).length = 7 :=
  ⟨fun m => ⟨le_refl (primeCount m), le_refl (primeCount m)⟩,
   primeCount_eq_filter_prime, rfl, rfl⟩

/-- C7: `upper_bound()` is always odd and is `2*(len-1)+1` over the store's flag
count; `sieve 30` and `sieve 31` give 29 and 31. -/
theorem C7_upper_bound_odd :
    (∀ P : Primes, P.upper_bound % 2 = 1 ∧ P.upper_bound = 2 * (P.v.length - 1) + 1) ∧
    (Primes.sieve 30).upper_bound = 29 ∧ (Primes.sieve 31).upper_bound = 31 := by
  refine ⟨fun P => ⟨?_, ?_⟩, rfl, rfl⟩
  · unfold Primes.upper_bound
    omega
  · unfold Primes.upper_bound
    omega

/-- C7 witness: the universal part applied to a concrete store. -/
theorem C7_upper_bound_odd_witness :
    (Primes.mk [true, true]).upper_bound % 2 = 1 ∧
    (Primes.mk [true, true]).upper_bound = 2 * ((Primes.mk [true, true]).v.length - 1) + 1 :=
  C7_upper_bound_odd.1 (Primes.mk [true, true])

/-- C8: `is_prime` on even `n` answers `n = 2`; on odd `n` within the bound it
answers the stored flag at `n / 2`; on odd `n` above the bound it hits the
assertion (modelled as `none`), a loud precondition failure rather than a
recoverable value. -/
theorem C8_is_prime_shape (P : Primes) (n : Nat) :
    (n % 2 = 0 → P.is_prime n = some (decide (n = 2))) ∧
    (n % 2 = 1 → n ≤ P.upper_bound → P.is_prime n = some (P.v.getD (n / 2) false)) ∧
    (n % 2 = 1 → P.upper_bound < n → P.is_prime n = none) := by
  unfold Primes.is_prime
  refine ⟨fun h => by rw [if_pos h], fun h hle => ?_, fun h hgt => ?_⟩
  · rw [if_neg (by omega), if_pos hle]
  · rw [if_neg (by omega), if_neg (by omega)]

/-- C8 witness: the three shapes at concrete inputs on `sieve 31`. -/
theorem C8_is_prime_shape_witness :
    (Primes.sieve 31).is_prime 10 = some (decide ((10 : Nat) = 2)) ∧
    (Primes.sieve 31).is_prime 9 = some ((Primes.sieve 31).v.getD (9 / 2) false) ∧
    (Primes.sieve 31).is_prime 33 = none :=
  ⟨(C8_is_prime_shape (Primes.sieve 31) 10).1 (by norm_num),
   (C8_is_prime_shape (Primes.sieve 31) 9).2.1 (by norm_num) (by decide),
   (C8_is_prime_shape (Primes.sieve 31) 33).2.2 (by norm_num) (by decide)⟩

/-- C9: `sieve` is total for every limit, and its upper bound is the clamped
limit `M = max 10 limit` when `M` is odd and `M - 1` when `M` is even; every
limit up to 10 gives 9. -/
theorem C9_sieve_total_upper_bound (limit : Nat) :
    ((max 10 limit) % 2 = 1 → (Primes.sieve limit).upper_bound = max 10 limit) ∧
    ((max 10 limit) % 2 = 0 → (Primes.sieve limit).upper_bound = max 10 limit - 1) ∧
    (limit ≤ 10 → (Primes.sieve limit).upper_bound = 9) := by
  have h := sieve_upper_bound_eq limit
  have h10 : 10 ≤ max 10 limit := le_max_left 10 limit
  refine ⟨fun ho => ?_, fun he => ?_, fun hle => ?_⟩
  · rw [h]; omega
  · rw [h]; omega
  · rw [h]
    have : max 10 limit = 10 := by omega
    rw [this]

/-- C9 witness at limits 13, 12 and 7. -/
theorem C9_sieve_total_upper_bound_witness :
    (Primes.sieve 13).upper_bound = max 10 13 ∧
    (Primes.sieve 12).upper_bound = max 10 12 - 1 ∧
    (Primes.sieve 7).upper_bound = 9 :=
  ⟨(C9_sieve_total_upper_bound 13).1 (by decide),
   (C9_sieve_total_upper_bound 12).2.1 (by decide),
   (C9_sieve_total_upper_bound 7).2.2 (by decide)⟩

/-- C10: whenever `factor n` fails for `n ≥ 1` with `(leftover, pairs)`, no
prime up to `upper_bound()` divides the leftover, and the partial pairs carry
primes at most `upper_bound()` in strictly increasing order with exponents at
least 1. -/
theorem C10_failure_invariants (L n lo : Nat) (pairs : List (Nat × Nat))
    (h1 : 1 ≤ n) (herr : (Primes.sieve L).factor n = Except.error (lo, pairs)) :
    (∀ r, Nat.Prime r → r ≤ (Primes.sieve L).upper_bound → ¬ r ∣ lo) ∧
    (pairs.map Prod.fst).Pairwise (· < ·) ∧
    (∀ pe ∈ pairs, Nat.Prime pe.1 ∧ pe.1 ≤ (Primes.sieve L).upper_bound ∧ 1 ≤ pe.2) := by
  obtain ⟨dpairs, n', heq, hpos, hprod, hsub, hall, hbig⟩ := factor_decomp L n h1
  have hfeq := factor_eq (Primes.sieve L) n (by omega) n' dpairs heq
  rw [hfeq] at herr
  by_cases h01 : n' = 1
  · rw [if_neg (by simp [h01])] at herr
    exact absurd herr (by simp)
  · rw [if_pos h01] at herr
    by_cases h02 : (Primes.sieve L).upper_bound * (Primes.sieve L).upper_bound ≥ n'
    · rw [if_pos h02] at herr
      exact absurd herr (by simp)
    · rw [if_neg h02] at herr
      injection herr with he
      injection he with he1 he2
      subst he1
      subst he2
      refine ⟨?_, List.Pairwise.sublist hsub (primesList_sieve_pairwise L), ?_⟩
      · intro r hr hle hdvd
        have := hbig r hr hdvd
        omega
      · intro pe hpe
        exact ⟨(hall pe hpe).1,
          primesList_sieve_le_ub L pe.1 (hsub.subset (List.mem_map_of_mem Prod.fst hpe)),
          (hall pe hpe).2⟩

/-- C10 witness at `L = 30`, `n = 5766`, failing with `(961, [(2,1),(3,1)])`. -/
theorem C10_failure_invariants_witness :
    (∀ r, Nat.Prime r → r ≤ (Primes.sieve 30).upper_bound → ¬ r ∣ 961) ∧
    (([(2, 1), (3, 1)] : List (Nat × Nat)).map Prod.fst).Pairwise (· < ·) ∧
    (∀ pe ∈ ([(2, 1), (3, 1)] : List (Nat × Nat)),
      Nat.Prime pe.1 ∧ pe.1 ≤ (Primes.sieve 30).upper_bound ∧ 1 ≤ pe.2) :=
  C10_failure_invariants 30 5766 961 [(2, 1), (3, 1)] (by norm_num) rfl

end SlowPrimes
